import Mathlib

/-! Verification development for the helper module `pint/utils.py` of the PINT
pulsar-timing toolkit.  The pure routines of that module are shallowly embedded
over `ℚ`, `ℤ`, `ℕ` and `List Char` (Python floats are modelled by exact
rationals; all the arithmetic performed in the verified paths is exact in
double precision as well), and theorems below settle the specification claims
about them. -/

namespace PintUtils

/-! ## Taylor series evaluation (`taylor_horner_deriv`) -/

/-- Embedding of `taylor_horner_deriv(x, coeffs, deriv_order)` from
`pint/utils.py` for plain (unitless) numeric inputs.  Python first evaluates
`coeffs[-1]` (for the unit probe), which raises `IndexError` on an empty
coefficient list; that failure is modelled by `none`.  Otherwise the code runs
`result = 0.0; der_coeffs = coeffs[deriv_order::]; fact = float(len(der_coeffs))`
and then `for coeff in der_coeffs[::-1]: result = result * x / fact + coeff;
fact -= 1.0`, returning `result`. -/
def taylor_horner_deriv (x : ℚ) (coeffs : List ℚ) (deriv_order : ℕ) : Option ℚ :=
  if coeffs.isEmpty then none
  else
    let der_coeffs := coeffs.drop deriv_order
    some ((der_coeffs.reverse.foldl
      (fun s coeff => (s.1 * x / s.2 + coeff, s.2 - 1))
      ((0 : ℚ), (der_coeffs.length : ℚ))).1)

/-! ## The `PosVel` value type -/

/-- A 3-component numeric vector (the constructor length check of
`PosVel.__init__` is enforced by the type). -/
abbrev Vec3 := ℚ × ℚ × ℚ

/-- Componentwise vector addition (numpy `+` on 3-vectors). -/
def v3add (a b : Vec3) : Vec3 := (a.1 + b.1, a.2.1 + b.2.1, a.2.2 + b.2.2)

/-- Componentwise vector negation (numpy unary `-` on 3-vectors). -/
def v3neg (a : Vec3) : Vec3 := (-a.1, -a.2.1, -a.2.2)

/-- Embedding of the `PosVel` class: position and velocity 3-vectors with the
optional `obj` and `origin` frame labels. -/
structure PosVel where
  pos : Vec3
  vel : Vec3
  obj : Option String := none
  origin : Option String := none
deriving DecidableEq

/-- Embedding of `PosVel._has_labels`: both labels are present. -/
def PosVel.has_labels (p : PosVel) : Bool := p.obj.isSome && p.origin.isSome

/-- Embedding of `PosVel.__neg__`: negate both vectors and swap the two
labels: `PosVel(-self.pos, -self.vel, obj=self.origin, origin=self.obj)`. -/
def PosVel.neg (p : PosVel) : PosVel :=
  { pos := v3neg p.pos, vel := v3neg p.vel, obj := p.origin, origin := p.obj }

/-- Embedding of `PosVel.__add__`.  When both operands carry both labels, the
label chains must connect (`self.obj == other.origin`, or else
`self.origin == other.obj`); otherwise a `RuntimeError` naming both chains
(`self.origin, self.obj, other.origin, other.obj`) is raised, modelled by
`Except.error` carrying those four labels.  With any label absent the sum is
returned unlabeled. -/
def PosVel.add (a b : PosVel) :
    Except (Option String × Option String × Option String × Option String) PosVel :=
  if a.has_labels && b.has_labels then
    if a.obj = b.origin then
      Except.ok { pos := v3add a.pos b.pos, vel := v3add a.vel b.vel,
                  obj := b.obj, origin := a.origin }
    else if a.origin = b.obj then
      Except.ok { pos := v3add a.pos b.pos, vel := v3add a.vel b.vel,
                  obj := a.obj, origin := b.origin }
    else
      Except.error (a.origin, a.obj, b.origin, b.obj)
  else
    Except.ok { pos := v3add a.pos b.pos, vel := v3add a.vel b.vel,
                obj := none, origin := none }

/-! ## High-precision MJD string conversion (`time_from_mjd_string`) -/

/-- A scientific-notation MJD string, after the code has lowercased it and
translated the Fortran `d` exponent marker to `e`: it models strings of the
shape `"<ipart digits>.<fpart digits>e<expon>"` (a nonempty integer-digit
part, an explicit decimal point, and an explicit signed exponent — exactly the
family on which the `"e" in ss` branch of `time_from_mjd_string` runs its
`num.split('.')` and `int(...)` calls on nonempty digit strings). -/
structure SciString where
  ipart : List ℕ
  fpart : List ℕ
  expon : ℤ

/-- Value of a digit string read by Python `int`: fold `10 * acc + digit`. -/
def natOfDigits (ds : List ℕ) : ℕ := ds.foldl (fun a d => 10 * a + d) 0

/-- Value of the fractional digit string `f₁f₂…` as the rational
`0.f₁f₂…`. -/
def fracVal : List ℕ → ℚ
  | [] => 0
  | d :: ds => ((d : ℚ) + fracVal ds) / 10

/-- The exact numeric value of the whole scientific-notation string
(`float(ss)` with the double rounding abstracted away). -/
def ratValue (s : SciString) : ℚ :=
  ((natOfDigits s.ipart : ℚ) + fracVal s.fpart) * 10 ^ s.expon

/-- Embedding of the scientific-notation branch of
`time_from_mjd_string(s, scale)` (the branch taken when `"e"`/`"d"` occurs in
the lowercased string).  Output: the split `(imjd, fmjd)` pair handed to
`astropy.time.Time`, plus a flag recording whether `log.warning` fired.
For `expon < 0` the code sets `imjd, fmjd = 0, float(ss)` and warns; for
`expon >= 0` it shifts the decimal point through string manipulation:
`imjd = int(imjd_s + fmjd_s[:expon])` and `fmjd = float("0." + fmjd_s[expon:])`. -/
def time_from_mjd_string_sci (s : SciString) : ℤ × ℚ × Bool :=
  if s.expon < 0 then
    (0, ratValue s, true)
  else
    ((natOfDigits (s.ipart ++ s.fpart.take s.expon.toNat) : ℤ),
     fracVal (s.fpart.drop s.expon.toNat), false)

/-! ## MJD output normalization (`time_to_mjd_string`,
`time_to_mjd_string_array`) -/

/-- Embedding of the fractional-day renormalization performed by the generic
(non-`pulsar_mjd`) branch of `time_to_mjd_string` on the `day_frac` output
`(imjd, fmjd)` — the two sequential conditionals
`if fmjd >= 1.0: imjd += 1; fmjd -= 1.0` and
`if fmjd < 0.0: imjd -= 1; fmjd += 1.0` ahead of formatting. -/
def time_to_mjd_string_norm (imjd : ℤ) (fmjd : ℚ) : ℤ × ℚ :=
  let s1 : ℤ × ℚ := if 1 ≤ fmjd then (imjd + 1, fmjd - 1) else (imjd, fmjd)
  if s1.2 < 0 then (s1.1 - 1, s1.2 + 1) else s1

/-- Embedding of the per-element loop of `time_to_mjd_string_array`: the same
two conditionals (`if f >= 1.0: i += 1; f -= 1.0` then
`if f < 0.0: i -= 1; f += 1.0`) applied to each `(imjd, fmjd)` pair. -/
def time_to_mjd_string_array_norm (ps : List (ℤ × ℚ)) : List (ℤ × ℚ) :=
  ps.map (fun p => time_to_mjd_string_norm p.1 p.2)

/-! ## Prefixed parameter name parsing (`split_prefixed_name`) -/

/-- Character classes occurring in the `prefixPattern` regexes:
`[a-zA-Z]`, `\d` and `[a-zA-Z0-9]` (all ASCII, matching `Char.isAlpha` and
`Char.isDigit`). -/
inductive CC
  | letter
  | digit
  | alnum
deriving DecidableEq

/-- Membership test of a character class. -/
def CC.test : CC → Char → Bool
  | CC.letter, c => c.isAlpha
  | CC.digit, c => c.isDigit
  | CC.alnum, c => c.isAlpha || c.isDigit

/-- Atoms of the anchored regexes: one required character of a class (`+` is
unrolled as one required character followed by `*`, which preserves the greedy
backtracking order), a greedy possibly-empty repetition, and a literal
character. -/
inductive Atom
  | one (cls : CC)
  | star (cls : CC)
  | lit (ch : Char)
deriving DecidableEq

/-- Anchored greedy backtracking matcher for a sequence of atoms: the
semantics of Python `re.match` on the fully anchored `^...$` patterns of
`prefixPattern` (all quantifiers greedy).  A `star` tries the longest
class-conforming consumption first and backtracks on failure of the rest.
The trailing `$` anchor is the empty-atoms case: Python's `$` matches at the
end of the string and also just before a newline at the end of the string, so
the leftover input must be empty or a single final `'\n'` (which is not
consumed and belongs to no group).  On success the matcher returns the
characters consumed by each atom, in order. -/
def matchAtoms : List Atom → List Char → Option (List (List Char))
  | [], s => if s = [] ∨ s = ['\n'] then some [] else none
  | Atom.lit ch :: rest, s =>
    match s with
    | [] => none
    | c :: s2 => if c = ch then (matchAtoms rest s2).map (fun gs => [c] :: gs) else none
  | Atom.one cls :: rest, s =>
    match s with
    | [] => none
    | c :: s2 => if cls.test c then (matchAtoms rest s2).map (fun gs => [c] :: gs) else none
  | Atom.star cls :: rest, s =>
    (List.range (s.length + 1)).reverse.findSome? (fun k =>
      if (s.take k).all cls.test then
        (matchAtoms rest (s.drop k)).map (fun gs => s.take k :: gs)
      else none)

/-- `^([a-zA-Z]*\d+[a-zA-Z]+)(\d+)$` (prefixes like `T2EFAC2`): the first
five atoms form capture group 1, the last two group 2. -/
def prefixPatternOne : List Atom × ℕ :=
  ([Atom.star CC.letter, Atom.one CC.digit, Atom.star CC.digit,
    Atom.one CC.letter, Atom.star CC.letter,
    Atom.one CC.digit, Atom.star CC.digit], 5)

/-- `^([a-zA-Z]+)(\d+)$` (prefixes like `F12`). -/
def prefixPatternTwo : List Atom × ℕ :=
  ([Atom.one CC.letter, Atom.star CC.letter, Atom.one CC.digit, Atom.star CC.digit], 2)

/-- `^([a-zA-Z0-9]+_)(\d+)$` (prefixes like `DMXR1_3`). -/
def prefixPatternThree : List Atom × ℕ :=
  ([Atom.one CC.alnum, Atom.star CC.alnum, Atom.lit '_',
    Atom.one CC.digit, Atom.star CC.digit], 3)

/-- The ordered `prefixPattern` list of `pint/utils.py`. -/
def prefixPattern : List (List Atom × ℕ) :=
  [prefixPatternOne, prefixPatternTwo, prefixPatternThree]

/-- `pt.match(name)` followed by `namefield.groups()`: the two capture groups
of a successful anchored match. -/
def reMatch (pt : List Atom × ℕ) (name : List Char) : Option (List Char × List Char) :=
  (matchAtoms pt.1 name).map (fun gs => ((gs.take pt.2).flatten, (gs.drop pt.2).flatten))

/-- Python `int` on a digit string (leading zeros allowed and dropped). -/
def strToNat (s : List Char) : ℕ := s.foldl (fun a c => 10 * a + (c.toNat - 48)) 0

/-- The pattern loop of `split_prefixed_name`: try the patterns in order; on
a match, `break` (accept), unless the name contains an underscore and the
matched prefix group does not, in which case `continue`.  When the loop falls
off the end, the leaked loop variable `namefield` decides: if the last
iteration produced a (skipped) match its groups are returned anyway, and if
it produced `None` a `PrefixError` carrying the name is raised, modelled by
`none`. -/
def splitLoop (name : List Char) : List (List Atom × ℕ) → Option (List Char × List Char)
  | [] => none
  | pt :: rest =>
    match reMatch pt name with
    | none => splitLoop name rest
    | some (prefixPart, indexPart) =>
      if name.contains '_' then
        if prefixPart.contains '_' then some (prefixPart, indexPart)
        else
          match rest with
          | [] => some (prefixPart, indexPart)
          | _ :: _ => splitLoop name rest
      else some (prefixPart, indexPart)

/-- Embedding of `split_prefixed_name(name)`: the matched prefix part, index
part, and `int(indexPart)`; `none` models the `PrefixError`. -/
def split_prefixed_name (name : List Char) : Option (List Char × List Char × ℕ) :=
  (splitLoop name prefixPattern).map (fun pr => (pr.1, pr.2, strToNat pr.2))

/-! ## Line filtering (`interesting_lines`) -/

/-- The whitespace characters removed by Python `str.strip()` (ASCII). -/
def wsp (c : Char) : Bool :=
  c = ' ' || c = '\t' || c = '\n' || c = '\r' || c = '\x0b' || c = '\x0c'

/-- Python `str.strip()`: remove leading and trailing whitespace. -/
def stripChars (s : List Char) : List Char :=
  ((s.dropWhile wsp).reverse.dropWhile wsp).reverse

/-- The `cc` tuple built by `interesting_lines` from its `comments` argument:
`None` gives the empty tuple, a tuple is kept as is, and a single marker
string becomes a one-element tuple. -/
def ccOf : Option (List Char ⊕ List (List Char)) → List (List Char)
  | none => []
  | some (Sum.inl c) => [c]
  | some (Sum.inr t) => t

/-- `ln.startswith(comments)` on the original `comments` argument: a single
marker is a prefix test, a tuple succeeds when any member is a prefix, and
`None` means the test is skipped. -/
def startswithAny : Option (List Char ⊕ List (List Char)) → List Char → Bool
  | none, _ => false
  | some (Sum.inl c), l => c.isPrefixOf l
  | some (Sum.inr t), l => t.any (fun c => c.isPrefixOf l)

/-- The marker validation of `interesting_lines`: with `cs = c.strip()`, the
code raises `ValueError` when `not cs or not c.startswith(cs)`. -/
def markerBad (c : List Char) : Bool :=
  (stripChars c).isEmpty || !((stripChars c).isPrefixOf c)

/-- Embedding of `interesting_lines(lines, comments)`: every comment marker is
validated up front (`ValueError`, modelled by `none`, fires before any input
line is read or yielded), then each line is stripped and yielded unless blank
or starting with a comment marker. -/
def interesting_lines (lines : List (List Char))
    (comments : Option (List Char ⊕ List (List Char))) : Option (List (List Char)) :=
  if (ccOf comments).any markerBad then none
  else
    some (lines.filterMap (fun ln =>
      if (stripChars ln).isEmpty then none
      else if startswithAny comments (stripChars ln) then none
      else some (stripChars ln)))

end PintUtils

namespace PintUtils

/-! ## Theorems about `taylor_horner_deriv` -/

/-- Claim C2 (counterexample): `taylor_horner_deriv(2.0, [10, 3, 4, 12], 1)`
does not return `15.0` — the docstring example value is wrong; the code
returns `35.0`, the true first derivative of
`10 + 3 x/1! + 4 x^2/2! + 12 x^3/3!` at `x = 2`. -/
theorem taylor_horner_deriv_doc_cex :
    taylor_horner_deriv 2 [10, 3, 4, 12] 1 ≠ some 15 := by
  norm_num [taylor_horner_deriv]

/-- Claim C2 (amended): with plain numeric inputs,
`taylor_horner_deriv(2.0, [10, 3, 4, 12], 1)` returns `35.0`. -/
theorem taylor_horner_deriv_first_deriv_value :
    taylor_horner_deriv 2 [10, 3, 4, 12] 1 = some 35 := by
  norm_num [taylor_horner_deriv]

/-- Claim C10: for a nonempty coefficient list and any derivative order at
least the list length, `taylor_horner_deriv` returns `0.0`: the coefficient
slice is empty and the accumulator is never updated. -/
theorem taylor_horner_deriv_vanishes (x : ℚ) (coeffs : List ℚ) (d : ℕ)
    (hne : coeffs ≠ []) (hd : coeffs.length ≤ d) :
    taylor_horner_deriv x coeffs d = some 0 := by
  unfold taylor_horner_deriv
  rw [if_neg (by simpa using hne)]
  have hdrop : coeffs.drop d = [] := List.drop_eq_nil_of_le hd
  simp [hdrop]

/-- Witness for C10 at a concrete input. -/
theorem taylor_horner_deriv_vanishes_witness :
    taylor_horner_deriv 1 [10] 5 = some 0 :=
  taylor_horner_deriv_vanishes 1 [10] 5 (by decide) (by decide)

/-! ## Theorems about `PosVel` -/

/-- Claim C7: negating a `PosVel` twice restores the vectors and both labels
(negation swaps `obj` and `origin`, so double negation restores them). -/
theorem posvel_double_neg (p v : Vec3) (obj origin : Option String) :
    PosVel.neg (PosVel.neg { pos := p, vel := v, obj := obj, origin := origin })
      = { pos := p, vel := v, obj := obj, origin := origin } := by
  obtain ⟨px, py, pz⟩ := p
  obtain ⟨vx, vy, vz⟩ := v
  simp [PosVel.neg, v3neg]

/-- Claim C6 (counterexample): when both label chains connect
(`A.obj = B.origin` and also `A.origin = B.obj`, with distinct labels), the
code takes the first branch, so the result is not labeled
`origin = B.origin, obj = A.obj` as the claim's symmetric clause demands:
here the sum is labeled `X->X`, not `Y->Y`. -/
theorem posvel_add_symmetric_cex :
    (PosVel.mk (1, 2, 3) (4, 5, 6) (some "Y") (some "X")).origin
        = (PosVel.mk (0, 0, 0) (0, 0, 0) (some "X") (some "Y")).obj
    ∧ PosVel.add (PosVel.mk (1, 2, 3) (4, 5, 6) (some "Y") (some "X"))
          (PosVel.mk (0, 0, 0) (0, 0, 0) (some "X") (some "Y"))
        = Except.ok (PosVel.mk (1, 2, 3) (4, 5, 6) (some "X") (some "X"))
    ∧ (some "X" : Option String) ≠ some "Y" := by
  refine ⟨rfl, ?_, by decide⟩
  simp [PosVel.add, PosVel.has_labels, v3add]

/-- Claim C6 (amended): for fully labeled `A` and `B`, if `A.obj = B.origin`
then `A + B` is the componentwise sum labeled `origin = A.origin`,
`obj = B.obj`; otherwise, if `A.origin = B.obj`, it is labeled
`origin = B.origin`, `obj = A.obj`; and when neither chain connects the
addition fails with an error naming both chains. -/
theorem posvel_add_label_chain (a b : PosVel)
    (ha : a.has_labels = true) (hb : b.has_labels = true) :
    (a.obj = b.origin →
      PosVel.add a b = Except.ok { pos := v3add a.pos b.pos, vel := v3add a.vel b.vel,
                                   obj := b.obj, origin := a.origin })
    ∧ (a.obj ≠ b.origin → a.origin = b.obj →
      PosVel.add a b = Except.ok { pos := v3add a.pos b.pos, vel := v3add a.vel b.vel,
                                   obj := a.obj, origin := b.origin })
    ∧ (a.obj ≠ b.origin → a.origin ≠ b.obj →
      PosVel.add a b = Except.error (a.origin, a.obj, b.origin, b.obj)) := by
  have hlab : (a.has_labels && b.has_labels) = true := by simp [ha, hb]
  refine ⟨?_, ?_, ?_⟩
  · intro h1
    unfold PosVel.add
    rw [if_pos hlab, if_pos h1]
  · intro h1 h2
    unfold PosVel.add
    rw [if_pos hlab, if_neg h1, if_pos h2]
  · intro h1 h2
    unfold PosVel.add
    rw [if_pos hlab, if_neg h1, if_neg h2]

/-- Witness for the amended C6 at concrete chained labels `X->Y` plus `Y->Z`. -/
theorem posvel_add_label_chain_witness :
    PosVel.add (PosVel.mk (1, 2, 3) (4, 5, 6) (some "Y") (some "X"))
        (PosVel.mk (7, 8, 9) (1, 1, 1) (some "Z") (some "Y"))
      = Except.ok { pos := v3add (1, 2, 3) (7, 8, 9), vel := v3add (4, 5, 6) (1, 1, 1),
                    obj := some "Z", origin := some "X" } :=
  (posvel_add_label_chain
    (PosVel.mk (1, 2, 3) (4, 5, 6) (some "Y") (some "X"))
    (PosVel.mk (7, 8, 9) (1, 1, 1) (some "Z") (some "Y"))
    (by decide) (by decide)).1 (by decide)

/-- Claim C9: whenever at least one of the four labels is absent, `PosVel`
addition succeeds and the result carries no labels at all. -/
theorem posvel_add_unlabeled (a b : PosVel)
    (h : ¬(a.has_labels = true ∧ b.has_labels = true)) :
    PosVel.add a b = Except.ok { pos := v3add a.pos b.pos, vel := v3add a.vel b.vel,
                                 obj := none, origin := none } := by
  unfold PosVel.add
  rw [if_neg]
  simpa [Bool.and_eq_true] using h

/-- Witness for C9: a fully labeled operand plus a partially labeled one. -/
theorem posvel_add_unlabeled_witness :
    PosVel.add (PosVel.mk (1, 2, 3) (4, 5, 6) (some "A") (some "B"))
        (PosVel.mk (1, 1, 1) (2, 2, 2) none (some "C"))
      = Except.ok { pos := v3add (1, 2, 3) (1, 1, 1), vel := v3add (4, 5, 6) (2, 2, 2),
                    obj := none, origin := none } :=
  posvel_add_unlabeled
    (PosVel.mk (1, 2, 3) (4, 5, 6) (some "A") (some "B"))
    (PosVel.mk (1, 1, 1) (2, 2, 2) none (some "C"))
    (by decide)

/-! ## Theorems about `time_from_mjd_string` -/

/-- Appending one digit multiplies the accumulated value by ten. -/
theorem natOfDigits_append (ds : List ℕ) (d : ℕ) :
    natOfDigits (ds ++ [d]) = 10 * natOfDigits ds + d := by
  simp [natOfDigits, List.foldl_append]

/-- The fractional value of a digit string is nonnegative. -/
theorem fracVal_nonneg (f : List ℕ) : 0 ≤ fracVal f := by
  induction f with
  | nil => simp [fracVal]
  | cons d ds ih =>
    have hd : (0 : ℚ) ≤ (d : ℚ) := by positivity
    simp only [fracVal]
    positivity

/-- The fractional value of a string of decimal digits is below one. -/
theorem fracVal_lt_one (f : List ℕ) (h : ∀ d ∈ f, d ≤ 9) : fracVal f < 1 := by
  induction f with
  | nil => norm_num [fracVal]
  | cons d ds ih =>
    have hd : (d : ℚ) ≤ 9 := by
      exact_mod_cast h d (List.mem_cons_self d ds)
    have hds : fracVal ds < 1 := ih (fun x hx => h x (List.mem_cons_of_mem d hx))
    simp only [fracVal]
    rw [div_lt_one (by norm_num)]
    linarith

/-- Shifting the decimal point `n` places (with `n` at most the number of
fractional digits) moves the first `n` fractional digits into the integer
part, exactly. -/
theorem shift_value (n : ℕ) :
    ∀ (f ds : List ℕ), n ≤ f.length →
      ((natOfDigits ds : ℚ) + fracVal f) * 10 ^ n
        = (natOfDigits (ds ++ f.take n) : ℚ) + fracVal (f.drop n) := by
  induction n with
  | zero => intro f ds _; simp
  | succ n ih =>
    intro f ds h
    match f with
    | [] => simp at h
    | d :: f2 =>
      have h2 : n ≤ f2.length := by simpa using Nat.succ_le_succ_iff.mp h
      have key := ih f2 (ds ++ [d]) h2
      have hval : (natOfDigits (ds ++ [d]) : ℚ) = 10 * (natOfDigits ds : ℚ) + d := by
        exact_mod_cast natOfDigits_append ds d
      calc ((natOfDigits ds : ℚ) + fracVal (d :: f2)) * 10 ^ (n + 1)
          = ((natOfDigits (ds ++ [d]) : ℚ) + fracVal f2) * 10 ^ n := by
            simp only [fracVal]
            rw [hval, pow_succ]
            ring
        _ = (natOfDigits ((ds ++ [d]) ++ f2.take n) : ℚ) + fracVal (f2.drop n) := key
        _ = (natOfDigits (ds ++ (d :: f2).take (n + 1)) : ℚ)
              + fracVal ((d :: f2).drop (n + 1)) := by
            simp [List.append_assoc]

/-- Claim C1 (counterexample): for the string `"5.5e3"` (value `5500`) the
exponent exceeds the number of fractional digits; the slice
`fmjd_s[:expon]` silently truncates, so the code returns integer day `55`
while the integer part of the value is `5500`. -/
theorem time_from_mjd_string_sci_cex :
    (time_from_mjd_string_sci ⟨[5], [5], 3⟩).1 = 55
    ∧ ⌊ratValue ⟨[5], [5], 3⟩⌋ = 5500
    ∧ (55 : ℤ) ≠ 5500 := by
  refine ⟨by decide, ?_, by decide⟩
  have hv : ratValue ⟨[5], [5], 3⟩ = 5500 := by
    norm_num [ratValue, natOfDigits, fracVal]
  rw [hv]
  rw [show ((5500 : ℚ)) = ((5500 : ℤ) : ℚ) by norm_num]
  exact Int.floor_intCast _

/-- Claim C1 (amended): for a scientific-notation MJD string with decimal
digits, a nonnegative exponent, and exponent at most the number of fractional
digits, the string-shifting branch produces an integer day equal to the exact
integer part of the string's value (no floating-point rounding involved). -/
theorem time_from_mjd_string_sci_day_floor (s : SciString)
    (hfp : ∀ d ∈ s.fpart, d ≤ 9)
    (he : 0 ≤ s.expon) (hlen : s.expon.toNat ≤ s.fpart.length) :
    (time_from_mjd_string_sci s).1 = ⌊ratValue s⌋ := by
  have hze : (10 : ℚ) ^ s.expon = 10 ^ s.expon.toNat := by
    rw [← zpow_natCast, Int.toNat_of_nonneg he]
  have hshift := shift_value s.expon.toNat s.fpart s.ipart hlen
  have hfrac0 : 0 ≤ fracVal (s.fpart.drop s.expon.toNat) := fracVal_nonneg _
  have hfrac1 : fracVal (s.fpart.drop s.expon.toNat) < 1 :=
    fracVal_lt_one _ (fun d hd => hfp d (List.drop_subset _ _ hd))
  have hv : ratValue s
      = (natOfDigits (s.ipart ++ s.fpart.take s.expon.toNat) : ℚ)
        + fracVal (s.fpart.drop s.expon.toNat) := by
    unfold ratValue
    rw [hze, hshift]
  have hday : (time_from_mjd_string_sci s).1
      = (natOfDigits (s.ipart ++ s.fpart.take s.expon.toNat) : ℤ) := by
    unfold time_from_mjd_string_sci
    rw [if_neg (not_lt.mpr he)]
  rw [hday, hv, eq_comm, Int.floor_eq_iff]
  constructor
  · push_cast
    linarith
  · push_cast
    linarith

/-- Witness for the amended C1 at the string `"5.55e1"` (value `55.5`). -/
theorem time_from_mjd_string_sci_day_floor_witness :
    (time_from_mjd_string_sci ⟨[5], [5, 5], 1⟩).1 = ⌊ratValue ⟨[5], [5, 5], 1⟩⌋ :=
  time_from_mjd_string_sci_day_floor ⟨[5], [5, 5], 1⟩ (by decide) (by decide) (by decide)

/-- Claim C5: for a negative exponent the parse does not fail: it warns and
returns integer day `0` with the fractional part set to the plain numeric
value of the whole string (deliberate precision loss; the exact rational
stands in for the double-precision float). -/
theorem time_from_mjd_string_sci_neg_exp (s : SciString) (h : s.expon < 0) :
    time_from_mjd_string_sci s = (0, ratValue s, true) := by
  simp [time_from_mjd_string_sci, h]

/-- Witness for C5 at the string `"5.5e-1"`. -/
theorem time_from_mjd_string_sci_neg_exp_witness :
    time_from_mjd_string_sci ⟨[5], [5], -1⟩ = (0, ratValue ⟨[5], [5], -1⟩, true) :=
  time_from_mjd_string_sci_neg_exp ⟨[5], [5], -1⟩ (by decide)

/-! ## Theorems about `split_prefixed_name` -/

/-- A successful anchored match consumes the input up to the `$` anchor: the
concatenation of the per-atom consumptions is the matched string, or the
matched string minus one trailing newline left to the `$` anchor. -/
theorem matchAtoms_flatten :
    ∀ (atoms : List Atom) (s : List Char) (gs : List (List Char)),
      matchAtoms atoms s = some gs → gs.flatten = s ∨ gs.flatten ++ ['\n'] = s := by
  intro atoms
  induction atoms with
  | nil =>
    intro s gs h
    simp only [matchAtoms] at h
    split at h
    · rename_i hcond
      obtain rfl := Option.some.inj h
      rcases hcond with rfl | rfl
      · left
        rfl
      · right
        rfl
    · exact absurd h (by simp)
  | cons a rest ih =>
    intro s gs h
    cases a with
    | lit ch =>
      cases s with
      | nil => simp [matchAtoms] at h
      | cons c s2 =>
        simp only [matchAtoms] at h
        split at h
        · rw [Option.map_eq_some'] at h
          obtain ⟨gs2, hgs2, rfl⟩ := h
          rcases ih s2 gs2 hgs2 with h2 | h2
          · left
            simp [h2]
          · right
            simp [h2]
        · exact absurd h (by simp)
    | one cls =>
      cases s with
      | nil => simp [matchAtoms] at h
      | cons c s2 =>
        simp only [matchAtoms] at h
        split at h
        · rw [Option.map_eq_some'] at h
          obtain ⟨gs2, hgs2, rfl⟩ := h
          rcases ih s2 gs2 hgs2 with h2 | h2
          · left
            simp [h2]
          · right
            simp [h2]
        · exact absurd h (by simp)
    | star cls =>
      simp only [matchAtoms] at h
      obtain ⟨k, _, hfk⟩ := List.exists_of_findSome?_eq_some h
      split at hfk
      · rw [Option.map_eq_some'] at hfk
        obtain ⟨gs2, hgs2, rfl⟩ := hfk
        rcases ih _ _ hgs2 with h2 | h2
        · left
          simp [h2]
        · right
          simp [List.append_assoc, h2]
      · exact absurd hfk (by simp)

/-- The two capture groups of a successful `prefixPattern` match concatenate
back to the matched name, up to one trailing newline absorbed by `$`. -/
theorem reMatch_append (pt : List Atom × ℕ) (name p i : List Char)
    (h : reMatch pt name = some (p, i)) :
    p ++ i = name ∨ p ++ i ++ ['\n'] = name := by
  unfold reMatch at h
  rw [Option.map_eq_some'] at h
  obtain ⟨gs, hgs, heq⟩ := h
  rw [Prod.mk.injEq] at heq
  obtain ⟨hp, hi⟩ := heq
  subst hp
  subst hi
  rcases matchAtoms_flatten pt.1 name gs hgs with h2 | h2
  · left
    rw [← List.flatten_append, List.take_append_drop]
    exact h2
  · right
    rw [← List.flatten_append, List.take_append_drop]
    exact h2

/-- Whatever the pattern loop returns was produced as the capture groups of
one of the patterns matched against the name. -/
theorem splitLoop_some (name p i : List Char) :
    ∀ pats, splitLoop name pats = some (p, i) →
      ∃ pt ∈ pats, reMatch pt name = some (p, i) := by
  intro pats
  induction pats with
  | nil => intro h; simp [splitLoop] at h
  | cons pt rest ih =>
    intro h
    rw [splitLoop] at h
    split at h
    · obtain ⟨q, hq, hr⟩ := ih h
      exact ⟨q, List.mem_cons_of_mem pt hq, hr⟩
    · rename_i pp ii hm
      split at h
      · split at h
        · exact ⟨pt, List.mem_cons_self pt _, hm.trans h⟩
        · split at h
          · exact ⟨pt, List.mem_cons_self pt _, hm.trans h⟩
          · obtain ⟨q, hq, hr⟩ := ih h
            exact ⟨q, List.mem_cons_of_mem pt hq, hr⟩
      · exact ⟨pt, List.mem_cons_self pt _, hm.trans h⟩

/-- Claim C4 (counterexample): Python's `$` also matches just before a
trailing newline, so `split_prefixed_name` on the name `"F12\n"` returns
`("F", "12", 12)` rather than raising `PrefixError` — and the prefix
concatenated with the index string does not reconstruct that name. -/
theorem split_prefixed_name_newline_cex :
    split_prefixed_name "F12\n".data = some ("F".data, "12".data, 12)
    ∧ "F".data ++ "12".data ≠ "F12\n".data := by
  exact ⟨by decide, by decide⟩

/-- Claim C4 (amended): whenever `split_prefixed_name` returns a triple
`(prefix, indexString, indexValue)`, the prefix concatenated with the index
string reconstructs the name up to one trailing newline absorbed by the `$`
anchor (it equals the name, or the name minus a single final newline), and
the index value is the integer value of the index string (with its leading
zeros dropped); on the spec's examples it returns `("DMX_", "0123", 123)`,
`("T2EFAC", "17", 17)`, `("F", "12", 12)`, also `("F", "12", 12)` on
`"F12\n"`, and raises `PrefixError` on `"PEPOCH"`. -/
theorem split_prefixed_name_spec :
    (∀ (name p i : List Char) (v : ℕ),
        split_prefixed_name name = some (p, i, v) →
          (p ++ i = name ∨ p ++ i ++ ['\n'] = name) ∧ v = strToNat i)
    ∧ split_prefixed_name "DMX_0123".data = some ("DMX_".data, "0123".data, 123)
    ∧ split_prefixed_name "T2EFAC17".data = some ("T2EFAC".data, "17".data, 17)
    ∧ split_prefixed_name "F12".data = some ("F".data, "12".data, 12)
    ∧ split_prefixed_name "F12\n".data = some ("F".data, "12".data, 12)
    ∧ split_prefixed_name "PEPOCH".data = none := by
  refine ⟨?_, by decide, by decide, by decide, by decide, by decide⟩
  intro name p i v h
  unfold split_prefixed_name at h
  rw [Option.map_eq_some'] at h
  obtain ⟨⟨pp, ii⟩, hsl, heq⟩ := h
  simp only [Prod.mk.injEq] at heq
  obtain ⟨hp, hi, hv⟩ := heq
  subst hp
  subst hi
  subst hv
  obtain ⟨pt, _, hre⟩ := splitLoop_some name pp ii prefixPattern hsl
  exact ⟨reMatch_append pt name pp ii hre, rfl⟩

/-- Witness for the amended C4: the reconstruction property instantiated at
`"F12"`. -/
theorem split_prefixed_name_spec_witness :
    ("F".data ++ "12".data = "F12".data
      ∨ "F".data ++ "12".data ++ ['\n'] = "F12".data)
    ∧ (12 : ℕ) = strToNat "12".data :=
  split_prefixed_name_spec.1 "F12".data "F".data "12".data 12
    split_prefixed_name_spec.2.2.2.1

/-! ## Theorems about the MJD output normalization -/

/-- Claim C3 (counterexample): at residual fraction `f = -3/2` (which does
satisfy `|f| < 2`) the two sequential conditionals leave a negative
fractional part, outside `[0, 1)`. -/
theorem time_to_mjd_string_norm_cex :
    |(-3/2 : ℚ)| < 2 ∧ (time_to_mjd_string_norm 0 (-3/2)).2 < 0 := by
  constructor
  · rw [abs_lt]; constructor <;> norm_num
  · norm_num [time_to_mjd_string_norm]

/-- Claim C3 (amended): for residual fractions `f` with `-1 ≤ f < 2` the
normalization of the generic branch of `time_to_mjd_string` lands the
fractional part in `[0, 1)`, incrementing the day when `f ≥ 1` and
decrementing it when `f < 0`; and every element produced by
`time_to_mjd_string_array` from such residuals likewise lies in `[0, 1)`. -/
theorem time_to_mjd_string_norm_range :
    (∀ (i : ℤ) (f : ℚ), -1 ≤ f → f < 2 →
      0 ≤ (time_to_mjd_string_norm i f).2 ∧ (time_to_mjd_string_norm i f).2 < 1
      ∧ (1 ≤ f → (time_to_mjd_string_norm i f).1 = i + 1)
      ∧ (f < 0 → (time_to_mjd_string_norm i f).1 = i - 1)
      ∧ (0 ≤ f → f < 1 → (time_to_mjd_string_norm i f).1 = i))
    ∧ (∀ ps : List (ℤ × ℚ), (∀ p ∈ ps, -1 ≤ p.2 ∧ p.2 < 2) →
      ∀ q ∈ time_to_mjd_string_array_norm ps, 0 ≤ q.2 ∧ q.2 < 1) := by
  have main : ∀ (i : ℤ) (f : ℚ), -1 ≤ f → f < 2 →
      0 ≤ (time_to_mjd_string_norm i f).2 ∧ (time_to_mjd_string_norm i f).2 < 1
      ∧ (1 ≤ f → (time_to_mjd_string_norm i f).1 = i + 1)
      ∧ (f < 0 → (time_to_mjd_string_norm i f).1 = i - 1)
      ∧ (0 ≤ f → f < 1 → (time_to_mjd_string_norm i f).1 = i) := by
    intro i f h1 h2
    have hnorm : time_to_mjd_string_norm i f
        = if 1 ≤ f then (i + 1, f - 1) else if f < 0 then (i - 1, f + 1) else (i, f) := by
      simp only [time_to_mjd_string_norm]
      by_cases hge : 1 ≤ f
      · rw [if_pos hge, if_pos hge,
          if_neg (show ¬((i + 1, f - 1).2 < 0) from by show ¬(f - 1 < 0); linarith)]
      · rw [if_neg hge, if_neg hge]
    rw [hnorm]
    split_ifs with hA hB
    · exact ⟨by show (0 : ℚ) ≤ f - 1; linarith, by show f - 1 < (1 : ℚ); linarith,
        fun _ => rfl, fun hc => by exfalso; linarith, fun _ hc => by exfalso; linarith⟩
    · have hA1 : f < 1 := lt_of_not_le hA
      exact ⟨by show (0 : ℚ) ≤ f + 1; linarith, by show f + 1 < (1 : ℚ); linarith,
        fun hc => by exfalso; linarith, fun _ => rfl, fun h0 _ => by exfalso; linarith⟩
    · have hA1 : f < 1 := lt_of_not_le hA
      have hB0 : 0 ≤ f := not_lt.mp hB
      exact ⟨hB0, hA1, fun hc => by exfalso; linarith, fun hc => by exfalso; linarith,
        fun _ _ => rfl⟩
  refine ⟨main, ?_⟩
  intro ps hps q hq
  unfold time_to_mjd_string_array_norm at hq
  obtain ⟨p, hp, rfl⟩ := List.mem_map.mp hq
  obtain ⟨hL, hR⟩ := hps p hp
  exact ⟨(main p.1 p.2 hL hR).1, (main p.1 p.2 hL hR).2.1⟩

/-- Witness for the amended C3 at `i = 0`, `f = 3/2` (scalar part) and at the
one-element array `[(0, 3/2)]`. -/
theorem time_to_mjd_string_norm_range_witness :
    (0 ≤ (time_to_mjd_string_norm 0 (3/2)).2 ∧ (time_to_mjd_string_norm 0 (3/2)).2 < 1
      ∧ ((1 : ℚ) ≤ 3/2 → (time_to_mjd_string_norm 0 (3/2)).1 = 0 + 1)
      ∧ ((3/2 : ℚ) < 0 → (time_to_mjd_string_norm 0 (3/2)).1 = 0 - 1)
      ∧ ((0 : ℚ) ≤ 3/2 → (3/2 : ℚ) < 1 → (time_to_mjd_string_norm 0 (3/2)).1 = 0))
    ∧ (∀ q ∈ time_to_mjd_string_array_norm [((0 : ℤ), (3/2 : ℚ))], 0 ≤ q.2 ∧ q.2 < 1) :=
  ⟨time_to_mjd_string_norm_range.1 0 (3/2) (by norm_num) (by norm_num),
   time_to_mjd_string_norm_range.2 [((0 : ℤ), (3/2 : ℚ))]
     (by intro p hp; simp at hp; rw [hp]; norm_num)⟩

/-! ## Theorems about `interesting_lines` -/

/-- Two lists in the prefix relation that are both nonempty share their head. -/
theorem prefix_head_eq {α : Type} {p l : List α} {x y : α} {ps ls : List α}
    (h : p <+: l) (hp : p = x :: ps) (hl : l = y :: ls) : x = y := by
  subst hp
  subst hl
  obtain ⟨t, ht⟩ := h
  rw [List.cons_append] at ht
  injection ht

/-- Stripping trailing whitespace yields a prefix of the original string. -/
theorem trailingStrip_prefix (l : List Char) :
    (l.reverse.dropWhile wsp).reverse <+: l := by
  have h : List.dropWhile wsp l.reverse <:+ l.reverse := List.dropWhile_suffix wsp
  rw [← List.reverse_reverse (List.dropWhile wsp l.reverse)] at h
  exact List.reverse_suffix.mp h

/-- Stripping a leading whitespace character first does not change the
result of `strip`. -/
theorem stripChars_cons_of_wsp (d : Char) (t : List Char) (hd : wsp d = true) :
    stripChars (d :: t) = stripChars t := by
  unfold stripChars
  rw [List.dropWhile_cons_of_pos hd]

/-- `strip` returns the empty string exactly on whitespace-only strings. -/
theorem strip_nil_iff (c : List Char) :
    stripChars c = [] ↔ ∀ d ∈ c, wsp d = true := by
  induction c with
  | nil => simp [stripChars]
  | cons d t ih =>
    by_cases hd : wsp d = true
    · rw [stripChars_cons_of_wsp d t hd, ih]
      constructor
      · intro h x hx
        rcases List.mem_cons.mp hx with rfl | hx2
        · exact hd
        · exact h x hx2
      · intro h x hx
        exact h x (List.mem_cons_of_mem d hx)
    · have h1 : List.dropWhile wsp (d :: t) = d :: t := List.dropWhile_cons_of_neg hd
      constructor
      · intro h0
        exfalso
        unfold stripChars at h0
        rw [h1] at h0
        have h2 := List.reverse_eq_nil_iff.mp h0
        have h3 := List.dropWhile_eq_nil_iff.mp h2
        exact hd (h3 d (by simp))
      · intro hall
        exact absurd (hall d (List.mem_cons_self d t)) hd

/-- When the string starts with a non-whitespace character, `strip` only
removes trailing whitespace, so the result is a prefix of the string. -/
theorem stripChars_prefix_of_head_not (d : Char) (t : List Char)
    (hd : ¬ wsp d = true) : stripChars (d :: t) <+: (d :: t) := by
  unfold stripChars
  rw [List.dropWhile_cons_of_neg hd]
  exact trailingStrip_prefix (d :: t)

/-- A nonempty `strip` result starts with a non-whitespace character. -/
theorem stripChars_head_false (c : List Char) (h : stripChars c ≠ []) :
    ∃ x xs, stripChars c = x :: xs ∧ wsp x = false := by
  induction c with
  | nil => exact absurd rfl h
  | cons d t ih =>
    by_cases hd : wsp d = true
    · rw [stripChars_cons_of_wsp d t hd] at h ⊢
      exact ih h
    · have h1 : stripChars (d :: t) <+: (d :: t) := stripChars_prefix_of_head_not d t hd
      obtain ⟨x, xs, hxs⟩ : ∃ x xs, stripChars (d :: t) = x :: xs := by
        cases hs : stripChars (d :: t) with
        | nil => exact absurd hs h
        | cons x xs => exact ⟨x, xs, rfl⟩
      have hx : x = d := prefix_head_eq h1 hxs rfl
      refine ⟨x, xs, hxs, ?_⟩
      rw [hx]
      cases hw : wsp d with
      | false => rfl
      | true => exact absurd hw hd

/-- The marker check of `interesting_lines` fires exactly on markers that are
whitespace-only or begin with a whitespace character. -/
theorem markerBad_iff (c : List Char) :
    markerBad c = true ↔
      (∀ d ∈ c, wsp d = true) ∨ ∃ d t, c = d :: t ∧ wsp d = true := by
  cases c with
  | nil =>
    constructor
    · intro _
      left
      intro d hd
      simp at hd
    · intro _
      decide
  | cons d t =>
    by_cases hd : wsp d = true
    · constructor
      · intro _
        right
        exact ⟨d, t, rfl, hd⟩
      · intro _
        by_cases hall : ∀ x ∈ d :: t, wsp x = true
        · unfold markerBad
          rw [(strip_nil_iff (d :: t)).mpr hall]
          rfl
        · have hne : stripChars (d :: t) ≠ [] :=
            fun h0 => hall ((strip_nil_iff (d :: t)).mp h0)
          obtain ⟨x, xs, hxs, hxf⟩ := stripChars_head_false (d :: t) hne
          unfold markerBad
          have hp : (stripChars (d :: t)).isPrefixOf (d :: t) = false := by
            cases hb : (stripChars (d :: t)).isPrefixOf (d :: t) with
            | false => rfl
            | true =>
              exfalso
              have hpre := List.isPrefixOf_iff_prefix.mp hb
              have hx : x = d := prefix_head_eq hpre hxs rfl
              rw [hx, hd] at hxf
              exact Bool.noConfusion hxf
          rw [hp]
          simp
    · constructor
      · intro hbad
        exfalso
        unfold markerBad at hbad
        have hne : stripChars (d :: t) ≠ [] :=
          fun h0 => hd ((strip_nil_iff (d :: t)).mp h0 d (List.mem_cons_self d t))
        have hpre : (stripChars (d :: t)).isPrefixOf (d :: t) = true :=
          List.isPrefixOf_iff_prefix.mpr (stripChars_prefix_of_head_not d t hd)
        rw [hpre] at hbad
        simp at hbad
        exact hne hbad
      · intro hor
        exfalso
        rcases hor with hall | ⟨d2, t2, heq, hw⟩
        · exact hd (hall d (List.mem_cons_self d t))
        · injection heq with h1 _
          rw [← h1] at hw
          exact hd hw

/-- Claim C8: `interesting_lines` takes its `comments` argument as a single
marker string or a tuple of markers; it raises a configuration error — before
any input line is read or yielded — exactly when some marker is
whitespace-only or begins with whitespace; otherwise it yields exactly the
stripped, non-blank lines that start with no marker (membership
characterization), as on the spec's examples. -/
theorem interesting_lines_spec :
    (∀ (lines : List (List Char)) (comments : Option (List Char ⊕ List (List Char))),
        interesting_lines lines comments = none ↔
          ∃ c ∈ ccOf comments,
            (∀ d ∈ c, wsp d = true) ∨ ∃ d t, c = d :: t ∧ wsp d = true)
    ∧ (∀ (lines : List (List Char)) (comments : Option (List Char ⊕ List (List Char)))
        (L : List (List Char)), interesting_lines lines comments = some L →
        ∀ l, l ∈ L ↔ ∃ ln ∈ lines,
          stripChars ln = l ∧ l ≠ [] ∧ startswithAny comments l = false)
    ∧ interesting_lines ["  ".data, "# comment".data, "data".data]
        (some (Sum.inl "#".data)) = some ["data".data]
    ∧ interesting_lines ["data".data] (some (Sum.inl " #".data)) = none := by
  refine ⟨?_, ?_, by decide, by decide⟩
  · intro lines comments
    unfold interesting_lines
    by_cases hany : (ccOf comments).any markerBad = true
    · rw [if_pos hany]
      constructor
      · intro _
        obtain ⟨c, hc, hbad⟩ := List.any_eq_true.mp hany
        exact ⟨c, hc, (markerBad_iff c).mp hbad⟩
      · intro _
        rfl
    · rw [if_neg hany]
      constructor
      · intro h
        exact absurd h (by simp)
      · intro h
        obtain ⟨c, hc, hor⟩ := h
        exact absurd (List.any_eq_true.mpr ⟨c, hc, (markerBad_iff c).mpr hor⟩) hany
  · intro lines comments L h
    unfold interesting_lines at h
    split at h
    · exact absurd h (by simp)
    · obtain rfl := Option.some.inj h
      intro l
      rw [List.mem_filterMap]
      constructor
      · rintro ⟨ln, hln, hf⟩
        split at hf
        · exact absurd hf (by simp)
        · split at hf
          · exact absurd hf (by simp)
          · rename_i hemp hsw
            obtain rfl := Option.some.inj hf
            refine ⟨ln, hln, rfl, ?_, ?_⟩
            · intro hnil
              exact hemp (by rw [hnil]; rfl)
            · cases hb : startswithAny comments (stripChars ln) with
              | false => rfl
              | true => exact absurd hb hsw
      · rintro ⟨ln, hln, hstrip, hne, hsw⟩
        refine ⟨ln, hln, ?_⟩
        rw [hstrip]
        rw [if_neg (fun hemp => hne (List.isEmpty_iff.mp hemp)), if_neg (by rw [hsw]; simp)]

/-- Witness for C8: the membership characterization instantiated on the
spec's example input. -/
theorem interesting_lines_spec_witness :
    "data".data ∈ ["data".data] ↔
      ∃ ln ∈ ["  ".data, "# comment".data, "data".data],
        stripChars ln = "data".data ∧ "data".data ≠ [] ∧
        startswithAny (some (Sum.inl "#".data)) "data".data = false :=
  interesting_lines_spec.2.1 ["  ".data, "# comment".data, "data".data]
    (some (Sum.inl "#".data)) ["data".data] interesting_lines_spec.2.2.1 "data".data

end PintUtils
